import Mathlib

/-!
Shallow embedding of `src/BsgBikeSim2014/cheby1lowpass.cpp`, the order-4
Chebyshev type-I low-pass IIR filter of the repository. Sample values are
modelled as exact rationals; the C++ `int` index arithmetic is modelled on
`ℤ` (every `%` in the translated code has a positive dividend at its use
sites, where C++ `%` and `Int.emod` agree).
-/

namespace Cheby1

/-- Coefficient array `const double a[]` from the anonymous namespace of
`cheby1lowpass.cpp`. -/
def a : List ℚ :=
  [0.000416599204407, 0.00166639681763, 0.00249959522644, 0.00166639681763,
   0.000416599204407]

/-- Coefficient array `const double b[]` from the anonymous namespace of
`cheby1lowpass.cpp`. -/
def b : List ℚ :=
  [1.0, -3.18063854887, 3.86119434899, -2.11215535511, 0.438265142262]

/-- Modelled from the spec: the buffer length `_size` is declared in
`cheby1lowpass.h`, a file of the repository that is not among the sources;
the spec fixes it as `order + 1 = 5`, matching the five-element coefficient
arrays that the filter loop indexes with `i < _size`. -/
def size : ℤ := 5

/-- Read of `a[i]` with a C++ `int` index. -/
def aC (i : ℤ) : ℚ := a.getD i.toNat 0

/-- Read of `b[i]` with a C++ `int` index. -/
def bC (i : ℤ) : ℚ := b.getD i.toNat 0

/-- The filter state: the members `_x`, `_y`, `_n` of class `Cheby1Lowpass`.
The two circular buffers are modelled as total maps from `ℤ`; the program
only ever reads and writes slots `0..4`. -/
structure Cheby1Lowpass where
  x : ℤ → ℚ
  y : ℤ → ℚ
  n : ℤ

/-- The constructor `Cheby1Lowpass::Cheby1Lowpass(): _x{0.0f}, _y{0.0f}, _n{0}`:
zero-filled buffers and write index 0. -/
def init : Cheby1Lowpass := ⟨fun _ => 0, fun _ => 0, 0⟩

/-- The circular-buffer index expression `(_n - i + _size) % _size` of the
filter loop. -/
def idx (n i : ℤ) : ℤ := (n - i + size) % size

/-- The loop counter values of `for (int i = 1; i < _size; ++i)`. -/
def loopIdxs : List ℤ := (List.range (size.toNat - 1)).map (fun k => (k : ℤ) + 1)

/-- The loop of `filter`, threading the output buffer: each iteration performs
`_y[_n] += b[i]*_x[(_n - i + _size) % _size] - a[i]*_y[(_n - i + _size) % _size]`. -/
def filterLoop (x : ℤ → ℚ) (n : ℤ) : List ℤ → (ℤ → ℚ) → (ℤ → ℚ)
  | [], y => y
  | i :: is, y =>
      filterLoop x n is
        (Function.update y n (y n + (bC i * x (idx n i) - aC i * y (idx n i))))

/-- The method `float Cheby1Lowpass::filter(float sample)`: write the sample
into `_x[_n]`, seed `_y[_n] = b[0]*_x[_n]`, run the accumulation loop, record
the result, advance `_n = (_n + 1) % _size`, and return the result. -/
def Cheby1Lowpass.filter (s : Cheby1Lowpass) (sample : ℚ) : ℚ × Cheby1Lowpass :=
  let x := Function.update s.x s.n sample
  let y0 := Function.update s.y s.n (bC 0 * x s.n)
  let y := filterLoop x s.n loopIdxs y0
  (y s.n, ⟨x, y, (s.n + 1) % size⟩)

/-- Repeated calls to `filter`: the list of outputs and the final state. -/
def run : Cheby1Lowpass → List ℚ → List ℚ × Cheby1Lowpass
  | s, [] => ([], s)
  | s, v :: vs =>
      let r := s.filter v
      let rest := run r.2 vs
      (r.1 :: rest.1, rest.2)

lemma loopIdxs_eq : loopIdxs = [1, 2, 3, 4] := by decide

lemma filter_fst (s : Cheby1Lowpass) (v : ℚ) :
    (s.filter v).1 =
      filterLoop (Function.update s.x s.n v) s.n loopIdxs
        (Function.update s.y s.n (bC 0 * Function.update s.x s.n v s.n)) s.n := rfl

lemma filter_x (s : Cheby1Lowpass) (v : ℚ) :
    (s.filter v).2.x = Function.update s.x s.n v := rfl

lemma filter_y (s : Cheby1Lowpass) (v : ℚ) :
    (s.filter v).2.y =
      filterLoop (Function.update s.x s.n v) s.n loopIdxs
        (Function.update s.y s.n (bC 0 * Function.update s.x s.n v s.n)) := rfl

lemma filter_n (s : Cheby1Lowpass) (v : ℚ) :
    (s.filter v).2.n = (s.n + 1) % size := rfl

lemma idx_ne (n i : ℤ) (_hn0 : 0 ≤ n) (_hn : n < size) (hi1 : 1 ≤ i) (hi : i < size) :
    idx n i ≠ n := by
  simp only [idx, size] at *
  omega

lemma filterLoop_apply_ne (x : ℤ → ℚ) (n j : ℤ) (hj : j ≠ n) :
    ∀ (L : List ℤ) (y : ℤ → ℚ), filterLoop x n L y j = y j := by
  intro L
  induction L with
  | nil => intro y; rfl
  | cons i is ih =>
      intro y
      simp only [filterLoop]
      rw [ih]
      exact Function.update_noteq hj _ _

lemma filterLoop_apply_self (x : ℤ → ℚ) (n : ℤ) :
    ∀ (L : List ℤ), (∀ i ∈ L, idx n i ≠ n) → ∀ (y : ℤ → ℚ),
      filterLoop x n L y n =
        y n + (L.map (fun i => bC i * x (idx n i) - aC i * y (idx n i))).sum := by
  intro L
  induction L with
  | nil => intro _ y; simp [filterLoop]
  | cons i is ih =>
      intro h y
      simp only [filterLoop, List.map_cons, List.sum_cons]
      rw [ih (fun i' hi' => h i' (List.mem_cons_of_mem _ hi')), Function.update_same]
      have hmap : is.map (fun i' =>
            bC i' * x (idx n i') -
              aC i' * Function.update y n
                (y n + (bC i * x (idx n i) - aC i * y (idx n i))) (idx n i'))
          = is.map (fun i' => bC i' * x (idx n i') - aC i' * y (idx n i')) := by
        refine List.map_congr_left ?_
        intro i' hi'
        rw [Function.update_noteq (h i' (List.mem_cons_of_mem _ hi'))]
      rw [hmap]
      ring

lemma filter_out_eq (s : Cheby1Lowpass) (v : ℚ) (hn0 : 0 ≤ s.n) (hn : s.n < size) :
    (s.filter v).1 =
      bC 0 * v + (loopIdxs.map
        (fun i => bC i * Function.update s.x s.n v (idx s.n i)
          - aC i * s.y (idx s.n i))).sum := by
  have hne : ∀ i ∈ loopIdxs, idx s.n i ≠ s.n := by
    intro i hi
    rw [loopIdxs_eq] at hi
    fin_cases hi <;> exact idx_ne _ _ hn0 hn (by norm_num) (by norm_num [size])
  rw [filter_fst, filterLoop_apply_self _ _ _ hne, Function.update_same,
    Function.update_same]
  have hmap : loopIdxs.map (fun i => bC i * Function.update s.x s.n v (idx s.n i)
        - aC i * Function.update s.y s.n (bC 0 * v) (idx s.n i))
      = loopIdxs.map (fun i => bC i * Function.update s.x s.n v (idx s.n i)
        - aC i * s.y (idx s.n i)) := by
    refine List.map_congr_left ?_
    intro i hi
    rw [Function.update_noteq (hne i hi) (bC 0 * v) s.y]
  rw [hmap]

lemma loopSum_eq (f : ℤ → ℚ) : (loopIdxs.map f).sum = f 1 + f 2 + f 3 + f 4 := by
  rw [loopIdxs_eq]
  simp only [List.map_cons, List.map_nil, List.sum_cons, List.sum_nil]
  ring

lemma sum_Icc14 (f : ℤ → ℚ) :
    (∑ i ∈ Finset.Icc (1 : ℤ) 4, f i) = f 1 + f 2 + f 3 + f 4 := by
  have h : Finset.Icc (1 : ℤ) 4 = insert 1 (insert 2 (insert 3 ({4} : Finset ℤ))) := by
    ext i
    simp only [Finset.mem_Icc, Finset.mem_insert, Finset.mem_singleton]
    omega
  rw [h, Finset.sum_insert (by decide), Finset.sum_insert (by decide),
    Finset.sum_insert (by decide), Finset.sum_singleton]
  ring

lemma filter_out_formula (s : Cheby1Lowpass) (v : ℚ)
    (hn0 : 0 ≤ s.n) (hn : s.n < size) :
    (s.filter v).1 =
      bC 0 * v + ∑ i ∈ Finset.Icc (1 : ℤ) 4,
        (bC i * Function.update s.x s.n v (idx s.n i) - aC i * s.y (idx s.n i)) := by
  rw [filter_out_eq s v hn0 hn, loopSum_eq, sum_Icc14]

lemma filter_y_update (s : Cheby1Lowpass) (v : ℚ) :
    (s.filter v).2.y = Function.update s.y s.n ((s.filter v).1) := by
  funext j
  by_cases hj : j = s.n
  · subst hj
    rw [Function.update_same]
    rfl
  · rw [Function.update_noteq hj, filter_y, filterLoop_apply_ne _ _ _ hj,
      Function.update_noteq hj]

lemma filter_init_out (v : ℚ) : (init.filter v).1 = v := by
  rw [filter_out_formula init v (by decide) (by decide), sum_Icc14]
  norm_num [init, idx, size, Function.update_apply, bC, aC, b, a]

lemma filterLoop_zero (x : ℤ → ℚ) (n : ℤ) (hx : ∀ j, x j = 0) :
    ∀ (L : List ℤ) (y : ℤ → ℚ), (∀ j, y j = 0) → ∀ j, filterLoop x n L y j = 0 := by
  intro L
  induction L with
  | nil => intro y hy j; exact hy j
  | cons i is ih =>
      intro y hy j
      simp only [filterLoop]
      refine ih _ ?_ j
      intro m
      rw [Function.update_apply]
      split_ifs with h
      · rw [hy, hx, hy]; ring
      · exact hy m

lemma filter_zero (s : Cheby1Lowpass) (hx : ∀ j, s.x j = 0) (hy : ∀ j, s.y j = 0) :
    (s.filter 0).1 = 0 ∧ (∀ j, (s.filter 0).2.x j = 0)
      ∧ (∀ j, (s.filter 0).2.y j = 0) := by
  have hx' : ∀ j, Function.update s.x s.n 0 j = 0 := by
    intro j
    rw [Function.update_apply]
    split_ifs with h
    · rfl
    · exact hx j
  have hy0 : ∀ j,
      Function.update s.y s.n (bC 0 * Function.update s.x s.n 0 s.n) j = 0 := by
    intro j
    rw [Function.update_apply]
    split_ifs with h
    · rw [hx' s.n]; ring
    · exact hy j
  refine ⟨?_, ?_, ?_⟩
  · rw [filter_fst]
    exact filterLoop_zero _ _ hx' _ _ hy0 s.n
  · intro j
    rw [filter_x]
    exact hx' j
  · intro j
    rw [filter_y]
    exact filterLoop_zero _ _ hx' _ _ hy0 j

lemma run_zero (k : ℕ) : ∀ (s : Cheby1Lowpass),
    (∀ j, s.x j = 0) → (∀ j, s.y j = 0) →
    (run s (List.replicate k 0)).1 = List.replicate k 0
    ∧ (∀ j, (run s (List.replicate k 0)).2.x j = 0)
    ∧ (∀ j, (run s (List.replicate k 0)).2.y j = 0) := by
  induction k with
  | zero => intro s hx hy; exact ⟨rfl, hx, hy⟩
  | succ m ih =>
      intro s hx hy
      obtain ⟨h1, h2, h3⟩ := filter_zero s hx hy
      have hrest := ih (s.filter 0).2 h2 h3
      constructor
      · show ((s.filter 0).1 :: (run (s.filter 0).2 (List.replicate m 0)).1)
            = 0 :: List.replicate m 0
        rw [h1, hrest.1]
      · exact ⟨hrest.2.1, hrest.2.2⟩

lemma run_n (vs : List ℚ) : ∀ (s : Cheby1Lowpass), 0 ≤ s.n → s.n < size →
    (run s vs).2.n = (s.n + vs.length) % size := by
  induction vs with
  | nil =>
      intro s h0 h1
      simp only [run, List.length_nil, size] at *
      omega
  | cons v vs ih =>
      intro s h0 h1
      have h0' : 0 ≤ (s.filter v).2.n := by
        rw [filter_n]; simp only [size]; omega
      have h1' : (s.filter v).2.n < size := by
        rw [filter_n]; simp only [size]; omega
      have h3 := ih (s.filter v).2 h0' h1'
      show (run (s.filter v).2 vs).2.n = (s.n + ((v :: vs).length : ℤ)) % size
      rw [h3, filter_n]
      simp only [List.length_cons, size]
      push_cast
      omega

lemma filter_out_agree (s t : Cheby1Lowpass) (v : ℚ) (hs : s.n = t.n)
    (h0 : 0 ≤ s.n) (h1 : s.n < size)
    (hagree : ∀ j : ℤ, j ≠ s.n → 0 ≤ j → j < size → s.x j = t.x j ∧ s.y j = t.y j) :
    (s.filter v).1 = (t.filter v).1 := by
  have ht0 : 0 ≤ t.n := hs ▸ h0
  have ht1 : t.n < size := hs ▸ h1
  have key : ∀ i ∈ loopIdxs,
      bC i * Function.update s.x s.n v (idx s.n i) - aC i * s.y (idx s.n i)
        = bC i * Function.update t.x s.n v (idx s.n i) - aC i * t.y (idx s.n i) := by
    intro i hi
    rw [loopIdxs_eq] at hi
    simp only [List.mem_cons, List.not_mem_nil, or_false] at hi
    have hb : 1 ≤ i ∧ i < size := by
      rcases hi with h | h | h | h <;> subst h <;> norm_num [size]
    have hne := idx_ne s.n i h0 h1 hb.1 hb.2
    have hlo : 0 ≤ idx s.n i := by simp only [idx, size]; omega
    have hhi : idx s.n i < size := by simp only [idx, size]; omega
    obtain ⟨hxj, hyj⟩ := hagree _ hne hlo hhi
    rw [Function.update_noteq hne v s.x, Function.update_noteq hne v t.x, hxj, hyj]
  rw [filter_out_eq s v h0 h1, filter_out_eq t v ht0 ht1, ← hs,
    List.map_congr_left key]

/-- C1: a call `filter(sample)` on a state whose write index lies in `[0, 5)`
writes the sample into `x[n]`, computes
`y[n] = b[0]*x[n] + Σ_{i=1}^{4} (b[i]*x[(n-i+5)%5] - a[i]*y[(n-i+5)%5])`
with `a`, `b` the fixed coefficient arrays, stores that value into `y[n]`,
advances `n` to `(n+1) % 5`, and returns the computed value. -/
theorem filter_step_spec (s : Cheby1Lowpass) (v : ℚ)
    (h0 : 0 ≤ s.n) (h1 : s.n < size) :
    (s.filter v).1 =
      bC 0 * Function.update s.x s.n v s.n
        + ∑ i ∈ Finset.Icc (1 : ℤ) 4,
            (bC i * Function.update s.x s.n v (idx s.n i) - aC i * s.y (idx s.n i))
    ∧ (s.filter v).2.x = Function.update s.x s.n v
    ∧ (s.filter v).2.y = Function.update s.y s.n ((s.filter v).1)
    ∧ (s.filter v).2.n = (s.n + 1) % size := by
  refine ⟨?_, filter_x s v, filter_y_update s v, filter_n s v⟩
  rw [Function.update_same]
  exact filter_out_formula s v h0 h1

theorem filter_step_spec_witness :
    ((0 : ℤ) ≤ init.n ∧ init.n < size)
    ∧ ((init.filter 2).1 =
        bC 0 * Function.update init.x init.n 2 init.n
          + ∑ i ∈ Finset.Icc (1 : ℤ) 4,
              (bC i * Function.update init.x init.n 2 (idx init.n i)
                - aC i * init.y (idx init.n i))
      ∧ (init.filter 2).2.x = Function.update init.x init.n 2
      ∧ (init.filter 2).2.y = Function.update init.y init.n ((init.filter 2).1)
      ∧ (init.filter 2).2.n = (init.n + 1) % size) :=
  ⟨⟨by decide, by decide⟩, filter_step_spec init 2 (by decide) (by decide)⟩

/-- C2: the code does not return `0.000416599204407` on the first call
`filter(1.0)` of a fresh filter; it returns `1.0`, because the array the
loop applies to inputs is `b[] = {1.0, ...}` — the generated coefficient
arrays hold numerator and denominator taps in each other's place. -/
theorem first_call_one_returns_one :
    (init.filter 1).1 = 1 ∧ (init.filter 1).1 ≠ 0.000416599204407 := by
  have h := filter_init_out 1
  exact ⟨h, by rw [h]; norm_num⟩

/-- C3: the coefficient arrays as the code declares and uses them: the array
`a`, the one the filter loop multiplies against past outputs, has first
element `0.000416599204407`, not `1.0`; the array `b`, the one multiplied
against inputs, starts with `1.0` and holds the denominator taps. The code
therefore violates the standard IIR convention the claim states. -/
theorem coefficient_arrays_swapped :
    aC 0 = 0.000416599204407 ∧ aC 0 ≠ 1 ∧ bC 0 = 1
      ∧ a.length = 5 ∧ b.length = 5 := by
  refine ⟨by norm_num [aC, a], by norm_num [aC, a], by norm_num [bC, b], rfl, rfl⟩

/-- C4: a fresh filter fed `k` zero samples outputs exactly zero on every
call, and both buffers are still identically zero afterwards. -/
theorem zero_input_stays_zero (k : ℕ) :
    (run init (List.replicate k 0)).1 = List.replicate k 0
    ∧ ∀ j : ℤ, (run init (List.replicate k 0)).2.x j = 0
        ∧ (run init (List.replicate k 0)).2.y j = 0 := by
  obtain ⟨h1, h2, h3⟩ := run_zero k init (fun _ => rfl) (fun _ => rfl)
  exact ⟨h1, fun j => ⟨h2 j, h3 j⟩⟩

/-- C7: the filter step is total — it always yields an output and a
successor state — and every circular-buffer index it computes,
`(n - i + 5) % 5` for `i = 1..4` and `n ∈ [0, 5)`, lies in `[0, 5)`, so no
out-of-bounds slot is ever touched. -/
theorem filter_total_and_index_in_bounds :
    (∀ (s : Cheby1Lowpass) (v : ℚ), ∃ r t, s.filter v = (r, t))
    ∧ ∀ n i : ℤ, 0 ≤ n → n < size → 1 ≤ i → i < size →
        0 ≤ idx n i ∧ idx n i < size := by
  constructor
  · intro s v
    exact ⟨_, _, rfl⟩
  · intro n i h0 h1 h2 h3
    simp only [idx, size] at *
    omega

theorem filter_total_and_index_in_bounds_witness :
    (∃ r t, init.filter 3 = (r, t)) ∧ (0 ≤ idx 0 4 ∧ idx 0 4 < size) :=
  ⟨filter_total_and_index_in_bounds.1 init 3,
   filter_total_and_index_in_bounds.2 0 4 (by decide) (by decide) (by decide)
     (by decide)⟩

/-- C8: a call to `filter` changes only the `x` slot at the pre-call index,
the `y` slot at the pre-call index, and the index itself: every other slot
of either buffer is unchanged, the new `x[n]` is the sample, the new `y[n]`
is the returned value, and `n` becomes `(n + 1) % 5`. -/
theorem filter_frame (s : Cheby1Lowpass) (v : ℚ) :
    (∀ j : ℤ, j ≠ s.n → (s.filter v).2.x j = s.x j ∧ (s.filter v).2.y j = s.y j)
    ∧ (s.filter v).2.x s.n = v
    ∧ (s.filter v).2.y s.n = (s.filter v).1
    ∧ (s.filter v).2.n = (s.n + 1) % size := by
  refine ⟨?_, ?_, ?_, filter_n s v⟩
  · intro j hj
    constructor
    · rw [filter_x]
      exact Function.update_noteq hj _ _
    · rw [filter_y_update]
      exact Function.update_noteq hj _ _
  · rw [filter_x]
    exact Function.update_same _ _ _
  · rw [filter_y_update]
    exact Function.update_same _ _ _

theorem filter_frame_witness :
    ((init.filter 7).2.x 2 = init.x 2 ∧ (init.filter 7).2.y 2 = init.y 2)
    ∧ (init.filter 7).2.x init.n = 7
    ∧ (init.filter 7).2.y init.n = (init.filter 7).1
    ∧ (init.filter 7).2.n = (init.n + 1) % size := by
  obtain ⟨h1, h2, h3, h4⟩ := filter_frame init 7
  exact ⟨h1 2 (by decide), h2, h3, h4⟩

/-- C10: on a freshly constructed filter the first call returns the sample
unchanged: the array the code multiplies against the fresh input has first
element `1.0`, and every history slot is still zero. -/
theorem first_call_is_identity (v : ℚ) : (init.filter v).1 = v :=
  filter_init_out v

/-- C5 counterexample: run a fresh filter through `filter(1) .. filter(5)`;
the write index is back at 0, and slot 0 of the input buffer still holds the
1st call's sample `1`. Overwriting both slot-0 entries — exactly the values
the 1st call stored — with `999` leaves the 6th call's output unchanged: the
6th call does not read the 1st call's stored values (it overwrites that slot
and reads only the slots written by calls 2..5). -/
theorem sixth_call_ignores_first_call_slot :
    ((run init [1, 2, 3, 4, 5]).2.filter 6).1 =
      ((⟨Function.update (run init [1, 2, 3, 4, 5]).2.x 0 999,
         Function.update (run init [1, 2, 3, 4, 5]).2.y 0 999,
         (run init [1, 2, 3, 4, 5]).2.n⟩ : Cheby1Lowpass).filter 6).1
    ∧ (run init [1, 2, 3, 4, 5]).2.n = 0
    ∧ (run init [1, 2, 3, 4, 5]).2.x 0 = 1 := by
  have hn : (run init [1, 2, 3, 4, 5]).2.n = 0 := by
    rw [run_n _ init (by decide) (by decide)]
    decide
  refine ⟨?_, hn, by decide⟩
  apply filter_out_agree
  · rfl
  · rw [hn]
  · rw [hn]; decide
  · intro j hj hj0 hj1
    rw [hn] at hj
    exact ⟨(Function.update_noteq hj 999 (run init [1, 2, 3, 4, 5]).2.x).symm,
      (Function.update_noteq hj 999 (run init [1, 2, 3, 4, 5]).2.y).symm⟩

/-- C5 (amended): the write index is an integer in `[0, 5)` in every
reachable state (it starts at 0 and every call preserves the bound), and
after exactly 5 calls on a fresh filter it has cycled back to 0. The 6th
call, however, overwrites slot 0 — the slot the 1st call wrote — with the
new sample before computing, and its output reads only slots 1..4, the ones
written by calls 2..5: its oldest history read is slot
`(0 - 4 + 5) % 5 = 1`, written by the 2nd call, not the 1st call's slot. -/
theorem write_index_wraparound :
    (∀ (s : Cheby1Lowpass) (v : ℚ), 0 ≤ s.n → s.n < size →
        0 ≤ (s.filter v).2.n ∧ (s.filter v).2.n < size)
    ∧ init.n = 0
    ∧ (∀ inputs : List ℚ, inputs.length = 5 → (run init inputs).2.n = 0)
    ∧ (∀ (s t : Cheby1Lowpass) (v : ℚ), s.n = 0 → t.n = 0 →
        (∀ j : ℤ, 1 ≤ j → j < size → s.x j = t.x j ∧ s.y j = t.y j) →
        (s.filter v).1 = (t.filter v).1)
    ∧ idx 0 4 = 1 ∧ idx 0 1 = 4 := by
  refine ⟨?_, rfl, ?_, ?_, by decide, by decide⟩
  · intro s v h0 h1
    rw [filter_n]
    simp only [size]
    omega
  · intro inputs hlen
    rw [run_n _ init (by decide) (by decide), hlen]
    decide
  · intro s t v hs ht hagree
    refine filter_out_agree s t v (by rw [hs, ht]) (by rw [hs]) (by rw [hs]; decide) ?_
    intro j hj hj0 hj1
    rw [hs] at hj
    exact hagree j (by omega) hj1

theorem write_index_wraparound_witness :
    (0 ≤ (init.filter 9).2.n ∧ (init.filter 9).2.n < size)
    ∧ (run init [3, 1, 4, 1, 5]).2.n = 0
    ∧ (init.filter 9).1 =
        ((⟨Function.update init.x 0 5, Function.update init.y 0 7, 0⟩ :
          Cheby1Lowpass).filter 9).1
    ∧ idx 0 4 = 1 := by
  obtain ⟨h1, _, h3, h4, h5, _⟩ := write_index_wraparound
  refine ⟨h1 init 9 (by decide) (by decide), h3 [3, 1, 4, 1, 5] rfl,
    h4 init _ 9 rfl rfl ?_, h5⟩
  intro j hj1 hj2
  have hj0 : j ≠ 0 := by omega
  exact ⟨(Function.update_noteq hj0 5 init.x).symm,
    (Function.update_noteq hj0 7 init.y).symm⟩

/-- Tagged sample for a world of two filter instances: a sample sent to the
first instance or to the second. -/
inductive TaggedInput where
  | toA : ℚ → TaggedInput
  | toB : ℚ → TaggedInput

/-- The samples a schedule sends to the first instance. -/
def projA : List TaggedInput → List ℚ
  | [] => []
  | .toA v :: r => v :: projA r
  | .toB _ :: r => projA r

/-- The samples a schedule sends to the second instance. -/
def projB : List TaggedInput → List ℚ
  | [] => []
  | .toA _ :: r => projB r
  | .toB v :: r => v :: projB r

/-- Two filter instances side by side, each call dispatched to the instance
its tag names; collects both output lists and both final states. -/
def runPair (p : Cheby1Lowpass × Cheby1Lowpass) :
    List TaggedInput → (List ℚ × List ℚ) × (Cheby1Lowpass × Cheby1Lowpass)
  | [] => (([], []), p)
  | .toA v :: r =>
      let c := p.1.filter v
      let rest := runPair (c.2, p.2) r
      ((c.1 :: rest.1.1, rest.1.2), rest.2)
  | .toB v :: r =>
      let c := p.2.filter v
      let rest := runPair (p.1, c.2) r
      ((rest.1.1, c.1 :: rest.1.2), rest.2)

/-- The schedule that feeds each sample of `xs` to both instances in turn. -/
def interleave : List ℚ → List TaggedInput
  | [] => []
  | v :: vs => .toA v :: .toB v :: interleave vs

lemma runPair_eq (sched : List TaggedInput) :
    ∀ p : Cheby1Lowpass × Cheby1Lowpass,
      runPair p sched =
        (((run p.1 (projA sched)).1, (run p.2 (projB sched)).1),
         ((run p.1 (projA sched)).2, (run p.2 (projB sched)).2)) := by
  induction sched with
  | nil => intro p; rfl
  | cons c r ih =>
      intro p
      cases c with
      | toA v =>
          show ((((p.1.filter v).1 :: (runPair ((p.1.filter v).2, p.2) r).1.1,
              (runPair ((p.1.filter v).2, p.2) r).1.2),
              (runPair ((p.1.filter v).2, p.2) r).2)) = _
          rw [ih ((p.1.filter v).2, p.2)]
          rfl
      | toB v =>
          show ((((runPair (p.1, (p.2.filter v).2) r).1.1,
              (p.2.filter v).1 :: (runPair (p.1, (p.2.filter v).2) r).1.2),
              (runPair (p.1, (p.2.filter v).2) r).2)) = _
          rw [ih (p.1, (p.2.filter v).2)]
          rfl

lemma projA_interleave (xs : List ℚ) : projA (interleave xs) = xs := by
  induction xs with
  | nil => rfl
  | cons v vs ih => simp only [interleave, projA, ih]

lemma projB_interleave (xs : List ℚ) : projB (interleave xs) = xs := by
  induction xs with
  | nil => rfl
  | cons v vs ih => simp only [interleave, projB, ih]

/-- C6: in a world of two filter instances, each call only touches the
instance it names: a schedule of interleaved calls gives each instance
exactly the outputs and final state of running its own samples alone, so the
instances are deterministic and isolated. In particular, two independently
constructed instances fed the same samples (here fed to both in turn)
produce identical output sequences. -/
theorem state_isolation :
    (∀ (sched : List TaggedInput) (p : Cheby1Lowpass × Cheby1Lowpass),
      runPair p sched =
        (((run p.1 (projA sched)).1, (run p.2 (projB sched)).1),
         ((run p.1 (projA sched)).2, (run p.2 (projB sched)).2)))
    ∧ ∀ xs : List ℚ,
        (runPair (init, init) (interleave xs)).1.1 =
          (runPair (init, init) (interleave xs)).1.2 := by
  refine ⟨runPair_eq, ?_⟩
  intro xs
  rw [runPair_eq, projA_interleave, projB_interleave]

/-- State of a fresh filter after `k` calls `filter(c)`. -/
def stepState (c : ℚ) : ℕ → Cheby1Lowpass
  | 0 => init
  | k + 1 => ((stepState c k).filter c).2

/-- Output of the `(k+1)`-st call `filter(c)` on a fresh filter. -/
def stepOut (c : ℚ) (k : ℕ) : ℚ := ((stepState c k).filter c).1

lemma a_sum : a.sum = 0.006665587270514 := by norm_num [a]

lemma b_sum : b.sum = 0.006665587272 := by norm_num [b]

lemma aC_one : aC 1 = 0.00166639681763 := rfl

lemma aC_two : aC 2 = 0.00249959522644 := rfl

lemma aC_three : aC 3 = 0.00166639681763 := rfl

lemma aC_four : aC 4 = 0.000416599204407 := rfl

lemma bC_zero : bC 0 = 1.0 := rfl

lemma bC_one : bC 1 = -3.18063854887 := rfl

lemma bC_two : bC 2 = 3.86119434899 := rfl

lemma bC_three : bC 3 = -2.11215535511 := rfl

lemma bC_four : bC 4 = 0.438265142262 := rfl

lemma stepState_inv (c : ℚ) : ∀ k : ℕ,
    (stepState c k).n = (k : ℤ) % 5
    ∧ ∀ i : ℕ, 1 ≤ i → i ≤ 4 → i ≤ k →
        (stepState c k).x (((k : ℤ) - (i : ℤ)) % 5) = c
        ∧ (stepState c k).y (((k : ℤ) - (i : ℤ)) % 5) = stepOut c (k - i) := by
  intro k
  induction k with
  | zero =>
      refine ⟨by simp [stepState, init], ?_⟩
      intro i hi1 _ hik
      omega
  | succ m ih =>
      obtain ⟨hn, hslots⟩ := ih
      refine ⟨?_, ?_⟩
      · show ((stepState c m).filter c).2.n = ((m : ℤ) + 1) % 5
        rw [filter_n, hn]
        simp only [size]
        omega
      · intro i hi1 hi4 him
        have hx' : ((stepState c m).filter c).2.x
            = Function.update (stepState c m).x (stepState c m).n c :=
          filter_x _ _
        have hy' : ((stepState c m).filter c).2.y
            = Function.update (stepState c m).y (stepState c m).n (stepOut c m) :=
          filter_y_update _ _
        rcases Nat.eq_or_lt_of_le hi1 with h1 | h2
        · -- i = 1: the slot written by the call just performed
          have hi : i = 1 := h1.symm
          subst hi
          have hslot : (((m : ℤ) + 1) - (1 : ℤ)) % 5 = (stepState c m).n := by
            rw [hn]; omega
          constructor
          · show ((stepState c m).filter c).2.x ((((m : ℕ) : ℤ) + 1 - 1) % 5) = c
            rw [hx', show (((m : ℕ) : ℤ) + 1 - 1) % 5 = (stepState c m).n from hslot,
              Function.update_same]
          · show ((stepState c m).filter c).2.y ((((m : ℕ) : ℤ) + 1 - 1) % 5)
                = stepOut c (m + 1 - 1)
            rw [hy', show (((m : ℕ) : ℤ) + 1 - 1) % 5 = (stepState c m).n from hslot,
              Function.update_same, show m + 1 - 1 = m from by omega]
        · -- 2 ≤ i: an older slot, untouched by this call
          have hne : (((m : ℤ) + 1) - (i : ℤ)) % 5 ≠ (stepState c m).n := by
            rw [hn]; omega
          have hcast : (((m : ℤ) + 1) - (i : ℤ)) % 5
              = ((m : ℤ) - ((i - 1 : ℕ) : ℤ)) % 5 := by
            omega
          obtain ⟨hxm, hym⟩ := hslots (i - 1) (by omega) (by omega) (by omega)
          constructor
          · show ((stepState c m).filter c).2.x ((((m : ℕ) : ℤ) + 1 - (i : ℤ)) % 5) = c
            rw [hx', Function.update_noteq hne, hcast]
            exact hxm
          · show ((stepState c m).filter c).2.y ((((m : ℕ) : ℤ) + 1 - (i : ℤ)) % 5)
                = stepOut c (m + 1 - i)
            rw [hy', Function.update_noteq hne, hcast, hym,
              show m + 1 - i = m - (i - 1) from by omega]

lemma stepOut_rec (c : ℚ) (k : ℕ) (hk : 4 ≤ k) :
    stepOut c k = bC 0 * c
      + ((bC 1 * c - aC 1 * stepOut c (k - 1))
        + (bC 2 * c - aC 2 * stepOut c (k - 2))
        + (bC 3 * c - aC 3 * stepOut c (k - 3))
        + (bC 4 * c - aC 4 * stepOut c (k - 4))) := by
  obtain ⟨hn, hslots⟩ := stepState_inv c k
  have h0 : 0 ≤ (stepState c k).n := by rw [hn]; omega
  have h1 : (stepState c k).n < size := by rw [hn]; simp only [size]; omega
  have hterm : ∀ i : ℕ, 1 ≤ i → i ≤ 4 →
      Function.update (stepState c k).x (stepState c k).n c
          (idx (stepState c k).n (i : ℤ)) = c
      ∧ (stepState c k).y (idx (stepState c k).n (i : ℤ)) = stepOut c (k - i) := by
    intro i hi1 hi4
    have hidx : idx (stepState c k).n (i : ℤ) = ((k : ℤ) - (i : ℤ)) % 5 := by
      rw [hn]
      simp only [idx, size]
      omega
    have hne : idx (stepState c k).n (i : ℤ) ≠ (stepState c k).n := by
      rw [hidx, hn]
      omega
    obtain ⟨hx, hy⟩ := hslots i hi1 hi4 (by omega)
    exact ⟨by rw [Function.update_noteq hne, hidx]; exact hx, by rw [hidx]; exact hy⟩
  have t1 := hterm 1 (by norm_num) (by norm_num)
  have t2 := hterm 2 (by norm_num) (by norm_num)
  have t3 := hterm 3 (by norm_num) (by norm_num)
  have t4 := hterm 4 (by norm_num) (by norm_num)
  push_cast at t1 t2 t3 t4
  show ((stepState c k).filter c).1 = _
  rw [filter_out_eq _ _ h0 h1, loopSum_eq, t1.1, t1.2, t2.1, t2.2, t3.1, t3.2,
    t4.1, t4.2]

/-- C9: feeding the constant sample `1` repeatedly into a fresh filter, the
output sequence does not converge to `1 * (Σb / Σa)`, the DC gain the claim
names. For `k ≥ 4` the code forces
`y_k + a[1]*y_{k-1} + a[2]*y_{k-2} + a[3]*y_{k-3} + a[4]*y_{k-4} = Σb`, so
the only possible limit is `Σb / (1 + a[1] + a[2] + a[3] + a[4]) ≈ 0.0066`,
and `Σb / Σa ≈ 1` is not that value: the generated coefficient arrays are
applied with their roles swapped, so the code's steady-state gain is not the
designed one. -/
theorem step_response_gain_mismatch :
    ¬ Filter.Tendsto (fun k : ℕ => ((stepOut 1 k : ℚ) : ℝ)) Filter.atTop
        (nhds (((1 : ℚ) * (b.sum / a.sum) : ℚ) : ℝ)) := by
  intro h
  have h1 : Filter.Tendsto (fun k : ℕ => ((stepOut 1 (k + 1) : ℚ) : ℝ))
      Filter.atTop (nhds (((1 : ℚ) * (b.sum / a.sum) : ℚ) : ℝ)) :=
    h.comp (Filter.tendsto_add_atTop_nat 1)
  have h2 : Filter.Tendsto (fun k : ℕ => ((stepOut 1 (k + 2) : ℚ) : ℝ))
      Filter.atTop (nhds (((1 : ℚ) * (b.sum / a.sum) : ℚ) : ℝ)) :=
    h.comp (Filter.tendsto_add_atTop_nat 2)
  have h3 : Filter.Tendsto (fun k : ℕ => ((stepOut 1 (k + 3) : ℚ) : ℝ))
      Filter.atTop (nhds (((1 : ℚ) * (b.sum / a.sum) : ℚ) : ℝ)) :=
    h.comp (Filter.tendsto_add_atTop_nat 3)
  have h4 : Filter.Tendsto (fun k : ℕ => ((stepOut 1 (k + 4) : ℚ) : ℝ))
      Filter.atTop (nhds (((1 : ℚ) * (b.sum / a.sum) : ℚ) : ℝ)) :=
    h.comp (Filter.tendsto_add_atTop_nat 4)
  have hsum : Filter.Tendsto (fun k : ℕ =>
      ((stepOut 1 (k + 4) : ℚ) : ℝ)
        + (aC 1 : ℝ) * ((stepOut 1 (k + 3) : ℚ) : ℝ)
        + (aC 2 : ℝ) * ((stepOut 1 (k + 2) : ℚ) : ℝ)
        + (aC 3 : ℝ) * ((stepOut 1 (k + 1) : ℚ) : ℝ)
        + (aC 4 : ℝ) * ((stepOut 1 k : ℚ) : ℝ))
      Filter.atTop
      (nhds ((((1 : ℚ) * (b.sum / a.sum) : ℚ) : ℝ)
        + (aC 1 : ℝ) * (((1 : ℚ) * (b.sum / a.sum) : ℚ) : ℝ)
        + (aC 2 : ℝ) * (((1 : ℚ) * (b.sum / a.sum) : ℚ) : ℝ)
        + (aC 3 : ℝ) * (((1 : ℚ) * (b.sum / a.sum) : ℚ) : ℝ)
        + (aC 4 : ℝ) * (((1 : ℚ) * (b.sum / a.sum) : ℚ) : ℝ))) :=
    (((h4.add (h3.const_mul _)).add (h2.const_mul _)).add (h1.const_mul _)).add
      (h.const_mul _)
  have hval : (fun k : ℕ =>
      ((stepOut 1 (k + 4) : ℚ) : ℝ)
        + (aC 1 : ℝ) * ((stepOut 1 (k + 3) : ℚ) : ℝ)
        + (aC 2 : ℝ) * ((stepOut 1 (k + 2) : ℚ) : ℝ)
        + (aC 3 : ℝ) * ((stepOut 1 (k + 1) : ℚ) : ℝ)
        + (aC 4 : ℝ) * ((stepOut 1 k : ℚ) : ℝ))
      = fun _ : ℕ => ((bC 0 + bC 1 + bC 2 + bC 3 + bC 4 : ℚ) : ℝ) := by
    funext k
    have hr := stepOut_rec 1 (k + 4) (by omega)
    rw [show k + 4 - 1 = k + 3 from by omega, show k + 4 - 2 = k + 2 from by omega,
      show k + 4 - 3 = k + 1 from by omega, show k + 4 - 4 = k from by omega] at hr
    have hq : (stepOut 1 (k + 4) + aC 1 * stepOut 1 (k + 3) + aC 2 * stepOut 1 (k + 2)
        + aC 3 * stepOut 1 (k + 1) + aC 4 * stepOut 1 k : ℚ)
        = bC 0 + bC 1 + bC 2 + bC 3 + bC 4 := by
      linear_combination hr
    exact_mod_cast congrArg (fun q : ℚ => (q : ℝ)) hq
  rw [hval] at hsum
  have hfin := tendsto_nhds_unique hsum tendsto_const_nhds
  rw [b_sum, a_sum, aC_one, aC_two, aC_three, aC_four, bC_zero, bC_one, bC_two,
    bC_three, bC_four] at hfin
  norm_num at hfin

end Cheby1
